import Mathlib

/-!
Verification of the node-pipeline behavior exercised by the repository's
notebooks (`examples/nodes/torchata_nodes_basics.ipynb` and
`examples/nodes/hf_datasets_nodes_mnist.ipynb`).

The notebooks drive an external node-pipeline library whose implementation is
not part of the repository.  Its observable contract is documented in the
notebooks themselves (the BaseNode interface block, the markdown describing
each node, and the recorded cell outputs) and summarized in the repository's
specification.  Following that documentation we give a shallow embedding of
the node abstraction and of each node constructor the notebooks use, and prove
the stated properties about the resulting pipelines.
-/

namespace DataNodes

/-- Modelled from the spec: the BaseNode contract quoted in
`torchata_nodes_basics.ipynb` — a resettable pull-based iterator.  `init` is
the state of a freshly constructed node, `next` pulls one element (returning
`none` when the sequence is exhausted, the rendering of `StopIteration`), and
`reset` is `reset()` called with no argument, taking the state the node is in
to the state it restarts from. -/
structure Node (σ α : Type) where
  init : σ
  next : σ → Option (α × σ)
  reset : σ → σ

/-- Step function of a node whose state is the list of elements not yet
produced: pull the head, keep the tail. -/
def listNext : List α → Option (α × List α)
  | [] => none
  | a :: as => some (a, as)

/-- Modelled from the spec: `IterableWrapper` converts any iterable into a
node.  The wrapped iterable is rendered as the list of elements it yields;
`reset()` restarts it from the beginning. -/
def IterableWrapper (l : List α) : Node (List α) α :=
  ⟨l, listNext, fun _ => l⟩

/-- Pull up to `fuel` elements from state `s`, stopping early when `next`
returns `none`; returns the pulled elements together with the final state. -/
def drainFrom (next : σ → Option (α × σ)) : Nat → σ → List α × σ
  | 0, s => ([], s)
  | fuel + 1, s =>
    match next s with
    | none => ([], s)
    | some (a, s') =>
      let r := drainFrom next fuel s'
      (a :: r.1, r.2)

/-- Elements produced when pulling up to `fuel` times from state `s`. -/
def runFrom (next : σ → Option (α × σ)) (fuel : Nat) (s : σ) : List α :=
  (drainFrom next fuel s).1

/-- Elements a freshly constructed node produces within `fuel` pulls. -/
def nodeRun (n : Node σ α) (fuel : Nat) : List α :=
  runFrom n.next fuel n.init

/-- Step function of a mapping node: pull from upstream and apply `f`. -/
def mapNext (f : α → β) (next : σ → Option (α × σ)) (s : σ) : Option (β × σ) :=
  match next s with
  | none => none
  | some (a, s') => some (f a, s')

/-- Modelled from the spec: `Mapper` wraps an upstream node with a mapping
function `map_fn`, applying it to every element pulled from upstream. -/
def Mapper (up : Node σ α) (map_fn : α → β) : Node σ β :=
  ⟨up.init, mapNext map_fn up.next, up.reset⟩

@[simp] theorem drainFrom_zero (next : σ → Option (α × σ)) (s : σ) :
    drainFrom next 0 s = ([], s) := rfl

theorem drainFrom_succ (next : σ → Option (α × σ)) (fuel : Nat) (s : σ) :
    drainFrom next (fuel + 1) s =
      match next s with
      | none => ([], s)
      | some (a, s') =>
        let r := drainFrom next fuel s'
        (a :: r.1, r.2) := rfl

theorem runFrom_listNext (fuel : Nat) (s : List α) :
    runFrom listNext fuel s = s.take fuel := by
  induction fuel generalizing s with
  | zero => simp [runFrom]
  | succ k ih =>
    cases s with
    | nil => simp [runFrom, drainFrom, listNext]
    | cons a as =>
      simp only [runFrom, drainFrom, listNext, List.take_succ_cons]
      simpa [runFrom] using ih as

/-- Step function of a batching node: pull up to `batch_size` elements from
upstream; emit the group when it is full, and when upstream ran out mid-group
emit the undersized group only when `drop_last` is false (an empty group is
never emitted). -/
def batcherNext (next : σ → Option (α × σ)) (batch_size : Nat)
    (drop_last : Bool) (s : σ) : Option (List α × σ) :=
  let r := drainFrom next batch_size s
  if r.1.length = batch_size then some r
  else if drop_last then none
  else if r.1.isEmpty then none
  else some r

/-- Modelled from the spec: `Batcher` groups upstream elements into groups of
`batch_size`, with the `drop_last` policy for a final undersized group. -/
def Batcher (up : Node σ α) (batch_size : Nat) (drop_last : Bool) :
    Node σ (List α) :=
  ⟨up.init, batcherNext up.next batch_size drop_last, up.reset⟩

/-- Modelled from the spec: the notebook states that, by default, `drop_last`
is `true` for `Batcher`, so a final undersized group is not produced. -/
def batcherDefaultDropLast : Bool := true

/-- `Batcher` as constructed without an explicit `drop_last` argument. -/
def BatcherDefault (up : Node σ α) (batch_size : Nat) : Node σ (List α) :=
  Batcher up batch_size batcherDefaultDropLast

/-- The upstream node, started in state `s`, yields exactly the elements `l`
and ends in state `send`, where `next send = none`. -/
inductive Yields (next : σ → Option (α × σ)) : σ → List α → σ → Prop
  | done {s : σ} : next s = none → Yields next s [] s
  | step {s s' send : σ} {a : α} {l : List α} :
      next s = some (a, s') → Yields next s' l send →
      Yields next s (a :: l) send

/-- Reference chunking function: the consecutive groups of `b` elements of
`l`, followed by the final undersized group when `drop` is false and that
group is nonempty. -/
def chunkList (b : Nat) (drop : Bool) (l : List α) : List (List α) :=
  if _hb : b = 0 then []
  else if _hl : l.length < b then (if drop || l.isEmpty then [] else [l])
  else l.take b :: chunkList b drop (l.drop b)
  termination_by l.length
  decreasing_by
    simp only [List.length_drop]
    omega

theorem yields_last_none {next : σ → Option (α × σ)} {s send : σ}
    {l : List α} (h : Yields next s l send) : next send = none := by
  induction h with
  | done h => exact h
  | step _ _ ih => exact ih

theorem drainFrom_of_none {next : σ → Option (α × σ)} {s : σ}
    (h : next s = none) (k : Nat) : drainFrom next k s = ([], s) := by
  cases k with
  | zero => rfl
  | succ k => simp [drainFrom, h]

theorem yields_drainFrom_long {next : σ → Option (α × σ)} {s send : σ}
    {l : List α} (h : Yields next s l send) :
    ∀ k, l.length ≤ k → drainFrom next k s = (l, send) := by
  induction h with
  | done hn =>
    intro k _
    exact drainFrom_of_none hn k
  | step hs _ ih =>
    intro k hk
    cases k with
    | zero => simp at hk
    | succ k =>
      have hk' : _ ≤ k := Nat.le_of_succ_le_succ hk
      simp [drainFrom, hs, ih k hk']

theorem yields_drainFrom_short {next : σ → Option (α × σ)} :
    ∀ (k : Nat) {s send : σ} {l : List α}, Yields next s l send →
      k ≤ l.length →
      (drainFrom next k s).1 = l.take k ∧
        Yields next (drainFrom next k s).2 (l.drop k) send := by
  intro k
  induction k with
  | zero =>
    intro s send l h _
    exact ⟨rfl, h⟩
  | succ k ih =>
    intro s send l h hk
    cases h with
    | done hn => simp at hk
    | step hs htail =>
      have hk' : k ≤ _ := Nat.le_of_succ_le_succ hk
      obtain ⟨h1, h2⟩ := ih htail hk'
      refine ⟨?_, ?_⟩
      · simp [drainFrom, hs, h1]
      · simpa [drainFrom, hs] using h2

theorem runFrom_of_none {next : σ → Option (α × σ)} {s : σ}
    (h : next s = none) (k : Nat) : runFrom next k s = [] := by
  simp [runFrom, drainFrom_of_none h]

theorem batcher_runFrom {next : σ → Option (α × σ)} {b : Nat} {drop : Bool}
    (hb : 0 < b) :
    ∀ (fuel : Nat) {s send : σ} {l : List α}, Yields next s l send →
      l.length < fuel →
      runFrom (batcherNext next b drop) fuel s = chunkList b drop l := by
  intro fuel
  induction fuel with
  | zero =>
    intro s send l _ h
    exact absurd h (Nat.not_lt_zero _)
  | succ f ih =>
    intro s send l hy hlen
    have hb' : ¬ b = 0 := Nat.pos_iff_ne_zero.mp hb
    by_cases hcase : l.length < b
    · have hdrain := yields_drainFrom_long hy b (Nat.le_of_lt hcase)
      have hne : ¬ (l.length = b) := Nat.ne_of_lt hcase
      cases drop with
      | true =>
        have hbn : batcherNext next b true s = none := by
          simp [batcherNext, hdrain, hne]
        rw [runFrom_of_none hbn, chunkList]
        simp [hb', hcase]
      | false =>
        cases l with
        | nil =>
          have hbn : batcherNext next b false s = none := by
            simp [batcherNext, hdrain, hne, Ne.symm hb']
          rw [runFrom_of_none hbn, chunkList]
          simp [hb']
        | cons a as =>
          have hbn : batcherNext next b false s = some (a :: as, send) := by
            simp [batcherNext, hdrain, hne]
          have hsend : next send = none := yields_last_none hy
          have hbn2 : batcherNext next b false send = none := by
            simp [batcherNext, drainFrom_of_none hsend, Ne.symm hb']
          have hrest : (drainFrom (batcherNext next b false) f send).1 = [] :=
            runFrom_of_none hbn2 f
          rw [runFrom, drainFrom, hbn, chunkList]
          simp only [List.length_cons] at hcase
          simp [hb', hcase, hrest]
    · have hge : b ≤ l.length := Nat.le_of_not_lt hcase
      obtain ⟨h1, h2⟩ := yields_drainFrom_short b hy hge
      have hlt : (l.take b).length = b := by
        simp [List.length_take, Nat.min_eq_left hge]
      have hbn : batcherNext next b drop s =
          some (l.take b, (drainFrom next b s).2) := by
        have hpair : drainFrom next b s =
            (l.take b, (drainFrom next b s).2) := Prod.ext h1 rfl
        unfold batcherNext
        rw [hpair]
        simp [hlt]
      have hlen2 : (l.drop b).length < f := by
        simp only [List.length_drop]
        omega
      have ihr := ih h2 hlen2
      simp only [runFrom] at ihr
      rw [runFrom, drainFrom, hbn, chunkList]
      simp [hb', hcase, ihr]

theorem runFrom_mapNext (f : α → β) (next : σ → Option (α × σ))
    (fuel : Nat) (s : σ) :
    runFrom (mapNext f next) fuel s = (runFrom next fuel s).map f := by
  induction fuel generalizing s with
  | zero => simp [runFrom]
  | succ k ih =>
    simp only [runFrom, drainFrom, mapNext]
    cases h : next s with
    | none => simp
    | some p =>
      obtain ⟨a, s'⟩ := p
      simpa [runFrom] using ih s'

theorem iter_yields (l : List α) : Yields listNext l l ([] : List α) := by
  induction l with
  | nil => exact Yields.done rfl
  | cons a as ih => exact Yields.step rfl ih

theorem nodeRun_mapper (up : Node σ α) (f : α → β) (fuel : Nat) :
    nodeRun (Mapper up f) fuel = (nodeRun up fuel).map f :=
  runFrom_mapNext f up.next fuel up.init

theorem nodeRun_iterableWrapper (l : List α) :
    nodeRun (IterableWrapper l) l.length = l := by
  simp [nodeRun, IterableWrapper, runFrom_listNext]

/-- C1: for every upstream node yielding a finite sequence `l` and every
`batch_size` `b > 0`, `Batcher` yields the consecutive groups of exactly `b`
elements of `l` in upstream order, with the final group of `l.length % b`
elements emitted when `drop_last = false` and not emitted when
`drop_last = true` (this is what `chunkList` computes). -/
theorem batcher_yields_fixed_groups (up : Node σ α) (l : List α) (send : σ)
    (b : Nat) (drop_last : Bool) (fuel : Nat)
    (hy : Yields up.next up.init l send) (hb : 0 < b)
    (hfuel : l.length < fuel) :
    nodeRun (Batcher up b drop_last) fuel = chunkList b drop_last l :=
  batcher_runFrom hb fuel hy hfuel

/-- Witness for C1 at the notebook's example: the 10-element source with
`batch_size = 4` produces `[0,1,2,3]` and `[4,5,6,7]`, plus `[8,9]` exactly
when `drop_last = false`. -/
theorem batcher_yields_fixed_groups_witness :
    0 < 4 ∧
      chunkList 4 false (List.range 10) = [[0, 1, 2, 3], [4, 5, 6, 7], [8, 9]] ∧
      chunkList 4 true (List.range 10) = [[0, 1, 2, 3], [4, 5, 6, 7]] :=
  ⟨by decide,
   ((batcher_yields_fixed_groups (IterableWrapper (List.range 10))
      (List.range 10) [] 4 false 11 (iter_yields (List.range 10)) (by decide)
      (by decide)).symm).trans (by decide),
   ((batcher_yields_fixed_groups (IterableWrapper (List.range 10))
      (List.range 10) [] 4 true 11 (iter_yields (List.range 10)) (by decide)
      (by decide)).symm).trans (by decide)⟩

/-- C8: when `Batcher` is constructed without an explicit `drop_last`
argument, `drop_last` defaults to `true`: over the 10-element source with
`batch_size = 4` it yields exactly `[0,1,2,3]` and `[4,5,6,7]`, omitting the
final undersized group `[8,9]`. -/
theorem batcher_default_drop_last :
    batcherDefaultDropLast = true ∧
      nodeRun (BatcherDefault (IterableWrapper (List.range 10)) 4) 11 =
        [[0, 1, 2, 3], [4, 5, 6, 7]] := by
  decide

/-- Step function of `MapStyleWrapper`: pull the next index produced by the
sampler and look it up in the map-style dataset. -/
def msNext (map_dataset : Nat → α) : List Nat → Option (α × List Nat)
  | [] => none
  | i :: rest => some (map_dataset i, rest)

/-- Modelled from the spec: `MapStyleWrapper` wraps a (map-style dataset,
sampler) pair into a node; the map-style dataset is rendered by its
`__getitem__` function and the sampler by the list of indices it produces. -/
def MapStyleWrapper (map_dataset : Nat → α) (sampler : List Nat) :
    Node (List Nat) α :=
  ⟨sampler, msNext map_dataset, fun _ => sampler⟩

theorem msNext_eq_mapNext (map_dataset : Nat → α) (s : List Nat) :
    msNext map_dataset s = mapNext map_dataset listNext s := by
  cases s <;> rfl

theorem runFrom_msNext (map_dataset : Nat → α) (fuel : Nat) (s : List Nat) :
    runFrom (msNext map_dataset) fuel s = (s.take fuel).map map_dataset := by
  have h : msNext map_dataset = mapNext map_dataset listNext :=
    funext (msNext_eq_mapNext map_dataset)
  rw [h, runFrom_mapNext, runFrom_listNext]

/-- C6: `IterableWrapper` applied to an iterable yields exactly that
iterable's elements in order, and `MapStyleWrapper` applied to a (map-style
dataset, sampler) pair yields `dataset[i]` for each index `i` the sampler
produces, in sampler order. -/
theorem source_adapters_yield_sources (l : List α) (map_dataset : Nat → β)
    (sampler : List Nat) :
    nodeRun (IterableWrapper l) l.length = l ∧
      nodeRun (MapStyleWrapper map_dataset sampler) sampler.length =
        sampler.map map_dataset := by
  refine ⟨nodeRun_iterableWrapper l, ?_⟩
  simp [nodeRun, MapStyleWrapper, runFrom_msNext]

/-- C10: `MapStyleWrapper map_dataset sampler` is observationally equivalent
to the composed pipeline `Mapper (IterableWrapper sampler) map_dataset`: same
initial state, same step function, same reset, and hence the same element
sequence. -/
theorem mapstyle_equals_mapper_of_iterable (map_dataset : Nat → α)
    (sampler : List Nat) :
    (MapStyleWrapper map_dataset sampler).init =
        (Mapper (IterableWrapper sampler) map_dataset).init ∧
      (∀ s, (MapStyleWrapper map_dataset sampler).next s =
        (Mapper (IterableWrapper sampler) map_dataset).next s) ∧
      (∀ s, (MapStyleWrapper map_dataset sampler).reset s =
        (Mapper (IterableWrapper sampler) map_dataset).reset s) ∧
      (∀ fuel, nodeRun (MapStyleWrapper map_dataset sampler) fuel =
        nodeRun (Mapper (IterableWrapper sampler) map_dataset) fuel) := by
  refine ⟨rfl, fun s => msNext_eq_mapNext map_dataset s, fun s => rfl, ?_⟩
  intro fuel
  have h : msNext map_dataset = mapNext map_dataset listNext :=
    funext (msNext_eq_mapNext map_dataset)
  simp [nodeRun, MapStyleWrapper, Mapper, IterableWrapper, h]

/-- Modelled from the spec: `Loader` converts a node into a restartable
iterable.  `loaderState n fuel k` is the state of the wrapped node when the
consumer starts its `k`-th iteration of the Loader: the first pass drains the
freshly constructed node, and before every later pass the Loader itself calls
`reset()` on the node — the consumer never does. -/
def loaderState (n : Node σ α) (fuel : Nat) : Nat → σ
  | 0 => n.init
  | k + 1 => n.reset (drainFrom n.next fuel (loaderState n fuel k)).2

/-- Elements the consumer sees during its `k`-th iteration of the Loader. -/
def loaderPass (n : Node σ α) (fuel k : Nat) : List α :=
  runFrom n.next fuel (loaderState n fuel k)

theorem loaderState_const {n : Node σ α} (h : ∀ s, n.reset s = n.init)
    (fuel : Nat) : ∀ k, loaderState n fuel k = n.init := by
  intro k
  induction k with
  | zero => rfl
  | succ k _ => exact h _

theorem loaderPass_of_reset_init {n : Node σ α} (h : ∀ s, n.reset s = n.init)
    (fuel k : Nat) : loaderPass n fuel k = nodeRun n fuel := by
  unfold loaderPass nodeRun
  rw [loaderState_const h fuel k]

/-- C3: iterating a Loader any number of consecutive times yields the wrapped
node's full element sequence on every pass, without the consumer ever calling
reset between passes, provided the node's argumentless `reset()` restores its
initial state (as the notebook's deterministic pipelines do). -/
theorem loader_yields_full_sequence_each_pass (n : Node σ α) (fuel : Nat)
    (h : ∀ s, n.reset s = n.init) (k : Nat) :
    loaderPass n fuel k = nodeRun n fuel :=
  loaderPass_of_reset_init h fuel k

/-- Witness for C3 at the notebook's example: two epochs over
`Loader (Batcher source 10)` each yield the batch `[0..9]`; here the second
pass (pass index 1) is evaluated. -/
theorem loader_yields_full_sequence_each_pass_witness :
    loaderPass (Batcher (IterableWrapper (List.range 10)) 10 true) 11 1 =
      [[0, 1, 2, 3, 4, 5, 6, 7, 8, 9]] :=
  (loader_yields_full_sequence_each_pass
      (Batcher (IterableWrapper (List.range 10)) 10 true) 11
      (fun _ => rfl) 1).trans (by decide)

/-- C5: for the notebook's pipeline over a deterministic source
(`Batcher` over `Mapper` over `IterableWrapper`), calling `reset()` with no
argument returns the node to its initial state, so the element sequence
produced after `reset()` equals the sequence a freshly constructed node
produces, and repeated reset-then-iterate passes yield identical sequences. -/
theorem reset_restores_initial_state (l : List α) (f : α → β) (b : Nat)
    (drop_last : Bool) (s : List α) (fuel k : Nat) :
    (Batcher (Mapper (IterableWrapper l) f) b drop_last).reset s =
        (Batcher (Mapper (IterableWrapper l) f) b drop_last).init ∧
      runFrom (Batcher (Mapper (IterableWrapper l) f) b drop_last).next fuel
          ((Batcher (Mapper (IterableWrapper l) f) b drop_last).reset s) =
        nodeRun (Batcher (Mapper (IterableWrapper l) f) b drop_last) fuel ∧
      loaderPass (Batcher (Mapper (IterableWrapper l) f) b drop_last) fuel k =
        nodeRun (Batcher (Mapper (IterableWrapper l) f) b drop_last) fuel := by
  refine ⟨rfl, rfl, ?_⟩
  exact loaderPass_of_reset_init (fun _ => rfl) fuel k

theorem chunkList_flatten (b : Nat) (hb : 0 < b) (l : List α) :
    (chunkList b false l).flatten = l := by
  have hb' : ¬ b = 0 := Nat.pos_iff_ne_zero.mp hb
  have main : ∀ (n : Nat) (l : List α), l.length ≤ n →
      (chunkList b false l).flatten = l := by
    intro n
    induction n with
    | zero =>
      intro l hl
      have : l = [] := List.eq_nil_of_length_eq_zero (Nat.le_zero.mp hl)
      subst this
      rw [chunkList]
      simp [hb']
    | succ n ih =>
      intro l hl
      rw [chunkList]
      by_cases hcase : l.length < b
      · by_cases he : l = []
        · subst he
          simp [hb']
        · simp [hb', hcase, he]
      · have hdrop : (l.drop b).length ≤ n := by
          simp only [List.length_drop]
          omega
        have ihd := ih (l.drop b) hdrop
        simp [hb', hcase, ihd]
  exact main l.length l le_rfl

/-- Mapping function installed by the basics notebook's Mapper cell. -/
def square (x : Nat) : Nat := x ^ 2

/-- Counterexample to C4 as stated: the squaring function defined in the
basics notebook and installed via `Mapper` does modify element values between
the source and the pipeline output (0..9 becomes 0,1,4,...,81). -/
theorem notebook_map_fn_modifies_payloads :
    nodeRun (Mapper (IterableWrapper (List.range 10)) square) 10 ≠
      nodeRun (IterableWrapper (List.range 10)) 10 := by
  decide

/-- C4 amended: the pipeline machinery itself (source wrappers, batching,
loader passes) passes element values through untouched — the wrapper
reproduces its source, concatenating the batches recovers exactly the source
elements, and every loader pass reproduces them; element values change only
where the notebooks install explicit mapping functions. -/
theorem pipeline_machinery_preserves_payloads (l : List α) (b k : Nat)
    (hb : 0 < b) :
    nodeRun (IterableWrapper l) l.length = l ∧
      (nodeRun (Batcher (IterableWrapper l) b false) (l.length + 1)).flatten =
        l ∧
      loaderPass (IterableWrapper l) l.length k = l := by
  refine ⟨nodeRun_iterableWrapper l, ?_, ?_⟩
  · rw [show nodeRun (Batcher (IterableWrapper l) b false) (l.length + 1) =
        chunkList b false l from
      batcher_runFrom hb (l.length + 1) (iter_yields l) (Nat.lt_succ_self _)]
    exact chunkList_flatten b hb l
  · exact (loaderPass_of_reset_init (fun _ => rfl) l.length k).trans
      (nodeRun_iterableWrapper l)

/-- Witness for the amended C4 at the notebook's source: batching 0..9 by 4
and concatenating recovers 0..9. -/
theorem pipeline_machinery_preserves_payloads_witness :
    0 < 4 ∧
      (nodeRun (Batcher (IterableWrapper (List.range 10)) 4 false) 11).flatten =
        List.range 10 :=
  ⟨by decide,
   (pipeline_machinery_preserves_payloads (List.range 10) 4 0
      (by decide)).2.1⟩

/-- Worker pool method selected by the `method` argument. -/
inductive PMethod where
  | thread
  | process

/-- Items handed to the worker pool, tagged with their input sequence
numbers starting at `i`, after each worker applied the pure `map_fn` to its
item: entry `(j, f a)` for the `j`-th upstream element `a`. -/
def workerResults (f : α → β) : Nat → List α → List (Nat × β)
  | _, [] => []
  | i, a :: as => (i, f a) :: workerResults f (i + 1) as

/-- Order on tagged results by input sequence number. -/
def keyLE (p q : Nat × β) : Prop := p.1 ≤ q.1

/-- Strict order on tagged results by input sequence number. -/
def keyLT (p q : Nat × β) : Prop := p.1 < q.1

instance : DecidableRel (@keyLE β) :=
  fun p q => inferInstanceAs (Decidable (p.1 ≤ q.1))

instance : IsTotal (Nat × β) keyLE :=
  ⟨fun p q => Nat.le_total p.1 q.1⟩

instance : IsTrans (Nat × β) keyLE :=
  ⟨fun _ _ _ h h' => Nat.le_trans h h'⟩

instance : IsAntisymm (Nat × β) keyLT :=
  ⟨fun _ _ h h' => absurd h (Nat.lt_asymm h')⟩

/-- Output-side reassembly: the completed items, which may arrive in any
order, are put back into input order by their sequence numbers before the
tags are stripped. -/
def reassemble (completions : List (Nat × β)) : List β :=
  (List.insertionSort keyLE completions).map Prod.snd

/-- Modelled from the spec: `ParallelMapper` executes `map_fn` across a
worker pool of `num_workers` workers using the thread- or process-based
`method`; the pool completes the tagged items in some arbitrary order (any
permutation of the tagged results), and the output side reassembles them in
input order. -/
def ParallelMapperRun (num_workers : Nat) (method : PMethod)
    (completions : List (Nat × β)) : List β :=
  have := num_workers
  have := method
  reassemble completions

theorem workerResults_map_fst (f : α → β) (i : Nat) (l : List α) :
    (workerResults f i l).map Prod.fst = List.range' i l.length := by
  induction l generalizing i with
  | nil => rfl
  | cons a as ih => simp [workerResults, List.range', ih]

theorem workerResults_map_snd (f : α → β) (i : Nat) (l : List α) :
    (workerResults f i l).map Prod.snd = l.map f := by
  induction l generalizing i with
  | nil => rfl
  | cons a as ih => simp [workerResults, ih]

theorem workerResults_sorted (f : α → β) (i : Nat) (l : List α) :
    List.Pairwise keyLT (workerResults f i l) := by
  have h : List.Pairwise (· < ·) ((workerResults f i l).map Prod.fst) := by
    rw [workerResults_map_fst]
    exact List.pairwise_lt_range' i l.length
  exact (List.pairwise_map.mp h).imp (fun hlt => hlt)

theorem workerResults_nodup_keys (f : α → β) (i : Nat) (l : List α) :
    ((workerResults f i l).map Prod.fst).Nodup := by
  rw [workerResults_map_fst]
  exact List.nodup_range' _ _

/-- C2: for every upstream sequence and pure mapping function `f`, a
`ParallelMapper` with any number of workers and either method (thread or
process), whatever order the pool completes the tagged items in, yields
exactly the same output sequence, in the same order, as the sequential
`Mapper` applying `f` to the same upstream. -/
theorem parallel_mapper_matches_sequential_mapper (l : List α) (f : α → β)
    (num_workers : Nat) (method : PMethod) (completions : List (Nat × β))
    (h : completions.Perm (workerResults f 0 l)) :
    ParallelMapperRun num_workers method completions =
      nodeRun (Mapper (IterableWrapper l) f) l.length := by
  have hperm : (List.insertionSort keyLE completions).Perm
      (workerResults f 0 l) :=
    (List.perm_insertionSort keyLE completions).trans h
  have hle : List.Pairwise keyLE (List.insertionSort keyLE completions) :=
    List.sorted_insertionSort keyLE completions
  have hnodup :
      ((List.insertionSort keyLE completions).map Prod.fst).Nodup :=
    ((workerResults_nodup_keys f 0 l).perm (hperm.map Prod.fst).symm)
  have hne : List.Pairwise (fun p q : Nat × β => p.1 ≠ q.1)
      (List.insertionSort keyLE completions) :=
    List.pairwise_map.mp hnodup
  have hlt : List.Pairwise keyLT (List.insertionSort keyLE completions) :=
    (hle.and hne).imp (fun hpq => Nat.lt_of_le_of_ne hpq.1 hpq.2)
  have heq : List.insertionSort keyLE completions = workerResults f 0 l :=
    List.eq_of_perm_of_sorted hperm hlt (workerResults_sorted f 0 l)
  rw [ParallelMapperRun, reassemble, heq, workerResults_map_snd,
    nodeRun_mapper, nodeRun_iterableWrapper]

/-- Witness for C2: squaring the source 0..9 with `num_workers = 2` and the
thread method, with the pool completing the items in reversed order, yields
0, 1, 4, 9, 16, 25, 36, 49, 64, 81 in order. -/
theorem parallel_mapper_matches_sequential_mapper_witness :
    ParallelMapperRun 2 PMethod.thread
        ((workerResults square 0 (List.range 10)).reverse) =
      [0, 1, 4, 9, 16, 25, 36, 49, 64, 81] :=
  (parallel_mapper_matches_sequential_mapper (List.range 10) square 2
      PMethod.thread ((workerResults square 0 (List.range 10)).reverse)
      (List.reverse_perm (workerResults square 0 (List.range 10)))).trans
    (by decide)

/-- Modelled from the spec: a framework sampler, rendered by the index
sequence it produces as a function of the last epoch passed to `set_epoch`,
together with whether it implements `set_epoch` at all (when it does not, its
sequence never depends on the epoch and `indices 0` is always used). -/
structure Sampler where
  indices : Nat → List Nat
  hasSetEpoch : Bool

/-- Index sequence the sampler produces when the wrapper is at epoch `e`:
`set_epoch e` has an effect only when the sampler implements it. -/
def samplerSeq (smp : Sampler) (e : Nat) : List Nat :=
  if smp.hasSetEpoch then smp.indices e else smp.indices 0

/-- Step function of `SamplerWrapper`: state is (epoch, remaining indices). -/
def swNext : Nat × List Nat → Option (Nat × (Nat × List Nat))
  | (_, []) => none
  | (e, i :: rest) => some (i, (e, rest))

/-- Modelled from the spec: `SamplerWrapper` converts a sampler into a node,
tracking the number of epochs: the epoch counter starts at 0, each
argumentless `reset()` increments it and calls the sampler's `set_epoch` with
the new current epoch when the sampler implements it, then restarts the
sampler's index sequence. -/
def SamplerWrapper (smp : Sampler) : Node (Nat × List Nat) Nat :=
  ⟨(0, samplerSeq smp 0), swNext,
    fun s => (s.1 + 1, samplerSeq smp (s.1 + 1))⟩

/-- The `epoch` attribute the notebook reads from the wrapper node. -/
def swEpoch (s : Nat × List Nat) : Nat := s.1

theorem drainFrom_swNext_epoch (k : Nat) :
    ∀ s : Nat × List Nat, swEpoch (drainFrom swNext k s).2 = swEpoch s := by
  induction k with
  | zero => intro s; rfl
  | succ k ih =>
    intro s
    obtain ⟨e, l⟩ := s
    cases l with
    | nil => rfl
    | cons i rest => simpa [drainFrom, swNext] using ih (e, rest)

/-- C9: `SamplerWrapper` maintains an epoch counter exposed as the node's
`epoch` attribute, starting at 0, unchanged while elements are pulled, and
increased by 1 at each reset of the node — so across two consecutive Loader
passes it reads 0 then 1 — and at each reset the wrapped sampler's
`set_epoch` is called with the current epoch whenever the sampler implements
it (otherwise the sampler's sequence stays that of epoch 0), unlike
`IterableWrapper`, whose reset is independent of any history. -/
theorem sampler_wrapper_tracks_epochs (smp : Sampler) (fuel : Nat)
    (l : List α) :
    swEpoch (SamplerWrapper smp).init = 0 ∧
      (∀ s, swEpoch ((SamplerWrapper smp).reset s) = swEpoch s + 1) ∧
      (∀ s a s', (SamplerWrapper smp).next s = some (a, s') →
        swEpoch s' = swEpoch s) ∧
      swEpoch (loaderState (SamplerWrapper smp) fuel 0) = 0 ∧
      swEpoch (loaderState (SamplerWrapper smp) fuel 1) = 1 ∧
      (smp.hasSetEpoch = true →
        ∀ s, ((SamplerWrapper smp).reset s).2 =
          smp.indices (swEpoch s + 1)) ∧
      (smp.hasSetEpoch = false →
        ∀ s, ((SamplerWrapper smp).reset s).2 = smp.indices 0) ∧
      (∀ s t : List α,
        (IterableWrapper l).reset s = (IterableWrapper l).reset t) := by
  refine ⟨rfl, fun s => rfl, ?_, rfl, ?_, ?_, ?_, fun s t => rfl⟩
  · intro s a s' h
    obtain ⟨e, lst⟩ := s
    cases lst with
    | nil => simp [SamplerWrapper, swNext] at h
    | cons i rest =>
      simp only [SamplerWrapper, swNext] at h
      cases h
      rfl
  · have h0 := drainFrom_swNext_epoch fuel (SamplerWrapper smp).init
    simp only [SamplerWrapper, swEpoch, loaderState] at h0 ⊢
    omega
  · intro hs s
    simp [SamplerWrapper, samplerSeq, hs, swEpoch]
  · intro hs s
    simp [SamplerWrapper, samplerSeq, hs, swEpoch]

/-- Witness for C9: a concrete sampler that implements `set_epoch` (its
sequence at epoch `e` is `[e, e+1]`): the epoch reads 0 on the first Loader
pass and 1 on the second, and the reset from epoch 0 re-seeds the sampler at
epoch 1. -/
theorem sampler_wrapper_tracks_epochs_witness :
    swEpoch (loaderState (SamplerWrapper ⟨fun e => [e, e + 1], true⟩) 3 0) =
        0 ∧
      swEpoch (loaderState (SamplerWrapper ⟨fun e => [e, e + 1], true⟩) 3 1) =
        1 ∧
      ((SamplerWrapper ⟨fun e => [e, e + 1], true⟩).reset (0, [0, 1])).2 =
        [1, 2] :=
  have h := sampler_wrapper_tracks_epochs ⟨fun e => [e, e + 1], true⟩ 3
    ([] : List Nat)
  ⟨h.2.2.2.1, h.2.2.2.2.1, (h.2.2.2.2.2.1 rfl (0, [0, 1])).trans (by decide)⟩

/-- Modelled from the spec: the processing pipeline the MNIST notebook
chains — `MapStyleWrapper` over the downloaded dataset and the sampler, a
mapper applying the notebook's `map_fn`, a `Batcher` with the default
`drop_last`, and a mapper applying the collate function.  The parallel
mappers are rendered by their order-preserving sequential semantics. -/
def mnistPipeline {α γ δ : Type} (dataset : Nat → α) (sampler : List Nat)
    (map_fn : α → γ) (batch_size : Nat) (collate : List γ → δ)
    (fuel : Nat) : List δ :=
  nodeRun (Mapper (BatcherDefault (Mapper (MapStyleWrapper dataset sampler)
    map_fn) batch_size) collate) fuel

/-- Modelled from the spec: the MNIST notebook first performs the external
dataset-hub download (`load_dataset`), which may fail; every later cell uses
the result directly, and no notebook cell contains an exception handler, so
the download's outcome is threaded through unhandled: an error aborts the
notebook, a success feeds the pipeline. -/
def mnistNotebook {ε α γ δ : Type} (download : Except ε (Nat → α))
    (sampler : List Nat) (map_fn : α → γ) (batch_size : Nat)
    (collate : List γ → δ) (fuel : Nat) : Except ε (List δ) :=
  Except.map
    (fun dataset => mnistPipeline dataset sampler map_fn batch_size collate
      fuel)
    download

/-- C7: the notebooks contain no exception handler, so a failure raised by
the external download propagates out of the notebook code unchanged — never
caught, transformed, or suppressed — while a successful download reaches the
pipeline untouched. -/
theorem notebook_propagates_external_errors {ε α γ δ : Type} (e : ε)
    (dataset : Nat → α) (sampler : List Nat) (map_fn : α → γ)
    (batch_size : Nat) (collate : List γ → δ) (fuel : Nat) :
    mnistNotebook (Except.error e : Except ε (Nat → α)) sampler map_fn
          batch_size collate fuel =
        Except.error e ∧
      mnistNotebook (Except.ok dataset : Except ε (Nat → α)) sampler map_fn
          batch_size collate fuel =
        Except.ok (mnistPipeline dataset sampler map_fn batch_size collate
          fuel) :=
  ⟨rfl, rfl⟩

end DataNodes
